import Mathlib

-- Verification development for the async_core scheduler (dkuk/async_core.hpp)
-- and its stackful coroutine facility (dkuk/spawn.hpp).
--
-- The C++ sources are shallowly embedded: enum classes become integer codes
-- (so that out-of-range values remain representable, as they are in C++),
-- stateful procedures become explicit state-passing functions, loops become
-- fueled recursions, and code that throws returns Except.

set_option maxHeartbeats 1000000

namespace AsyncCore

-- ===========================================================================
-- Worker parameters (async_core::worker) and their normalization
-- ===========================================================================

-- Values of enum class worker::poll, by their underlying integer value.
-- Any other Int models a value outside the enumeration (obtainable in C++
-- by casting an integer to the enum class).
def poll_disabled : Int := 0

def poll_one : Int := 1

def poll_all : Int := 2

def run_one : Int := 3

-- Values of enum class worker::delay.
def delay_no_delay : Int := 0

def delay_yield : Int := 1

def delay_sleep : Int := 2

/-- Embedding of struct worker::parameters.  delay_value is the
nanosecond count of the std::chrono::nanoseconds field. -/
structure WorkerParameters where
  self_poll_policy : Int
  children_poll_policy : Int
  delay_rounds : Nat
  delay_policy : Int
  delay_value : Int
deriving DecidableEq, Repr

/-- The default member initializers of worker::parameters:
poll_all self, poll_one children, 1 delay round, yield policy,
500 milliseconds delay value. -/
def default_parameters : WorkerParameters :=
  { self_poll_policy := poll_all
    children_poll_policy := poll_one
    delay_rounds := 1
    delay_policy := delay_yield
    delay_value := 500 * 1000 * 1000 }

/-- Embedding of async_core::fixed_worker_parameters_: each switch keeps the
four (resp. three) listed enumerators unchanged and replaces everything else
with the corresponding default; delay_rounds below 1 becomes the default 1. -/
def fixed_worker_parameters (p : WorkerParameters) : WorkerParameters :=
  let p1 :=
    if p.self_poll_policy = poll_disabled ∨ p.self_poll_policy = poll_one ∨
        p.self_poll_policy = poll_all ∨ p.self_poll_policy = run_one then p
    else { p with self_poll_policy := default_parameters.self_poll_policy }
  let p2 :=
    if p1.children_poll_policy = poll_disabled ∨ p1.children_poll_policy = poll_one ∨
        p1.children_poll_policy = poll_all ∨ p1.children_poll_policy = run_one then p1
    else { p1 with children_poll_policy := default_parameters.children_poll_policy }
  let p3 :=
    if p2.delay_rounds < 1 then { p2 with delay_rounds := default_parameters.delay_rounds }
    else p2
  let p4 :=
    if p3.delay_policy = delay_no_delay ∨ p3.delay_policy = delay_yield ∨
        p3.delay_policy = delay_sleep then p3
    else { p3 with delay_policy := default_parameters.delay_policy }
  p4

-- ===========================================================================
-- Context tree builder (async_core::context_tree)
-- ===========================================================================

/-- Embedding of context_tree::node: the per-descriptor data of the blueprint. -/
structure TreeNode where
  parent_id : Nat
  children_count : Nat
  worker_parameters : List WorkerParameters
  concurrency_hint : Option Int
  enabled : Bool
deriving DecidableEq, Repr

def default_tree_node : TreeNode :=
  { parent_id := 0
    children_count := 0
    worker_parameters := []
    concurrency_hint := none
    enabled := true }

/-- Embedding of async_core::context_tree: the ordered sequence of node
descriptors, indexed by the context id. -/
structure ContextTree where
  nodes : List TreeNode
deriving DecidableEq, Repr

/-- Embedding of context_tree::add_context_.  The new id is the current size;
a parent id that is neither smaller than the new id nor 0 raises out_of_range;
workers_count default-constructed parameter records are attached; for every
non-root node the children count of the parent is incremented. -/
def add_context (t : ContextTree) (parent_id : Nat) (workers_count : Nat)
    (enabled : Bool) (hint : Option Int) : Except String (ContextTree × Nat) :=
  let new_id := t.nodes.length
  if parent_id ≥ new_id ∧ parent_id ≠ 0 then .error "Incorrect context parent id"
  else
    let nodes1 := t.nodes ++
      [{ parent_id := parent_id
         children_count := 0
         worker_parameters := List.replicate workers_count default_parameters
         concurrency_hint := hint
         enabled := enabled }]
    let nodes2 :=
      if new_id ≠ 0 then
        let pn := nodes1.getD parent_id default_tree_node
        nodes1.set parent_id ({ pn with children_count := pn.children_count + 1 })
      else nodes1
    .ok ({ nodes := nodes2 }, new_id)

/-- Embedding of context_tree::add_worker (the overload taking parameters):
looks the node up with bounds checking, appends the fixed parameters and
returns the new worker id (the previous count). -/
def add_worker (t : ContextTree) (context_id : Nat) (p : WorkerParameters) :
    Except String (ContextTree × Nat) :=
  if context_id < t.nodes.length then
    let n := t.nodes.getD context_id default_tree_node
    let worker_id := n.worker_parameters.length
    let n2 := { n with worker_parameters := n.worker_parameters ++ [fixed_worker_parameters p] }
    .ok ({ nodes := t.nodes.set context_id n2 }, worker_id)
  else .error "out_of_range"

/-- Embedding of context_tree::set_worker_parameters: both lookups are bounds
checked; the slot is overwritten with the fixed parameters. -/
def set_worker_parameters (t : ContextTree) (context_id : Nat) (worker : Nat)
    (p : WorkerParameters) : Except String ContextTree :=
  if context_id < t.nodes.length then
    if worker < (t.nodes.getD context_id default_tree_node).worker_parameters.length then
      let n := t.nodes.getD context_id default_tree_node
      let n2 := { n with worker_parameters :=
        n.worker_parameters.set worker (fixed_worker_parameters p) }
      .ok { nodes := t.nodes.set context_id n2 }
    else .error "out_of_range"
  else .error "out_of_range"

-- ===========================================================================
-- Scheduler lifecycle (async_core::state, start, stop, join, destructor)
-- ===========================================================================

/-- Embedding of enum class async_core::state. -/
inductive CoreState
  | idle
  | starting
  | running
  | stopping
deriving DecidableEq, Repr

/-- Observable actions of the lifecycle member functions: mutex acquisitions,
stores to the atomic state variable, and the worker bookkeeping calls. -/
inductive LifeEvent
  | lock_stop_mutex
  | lock_join_mutex
  | set_state (s : CoreState)
  | start_workers_call
  | stop_workers_call
  | join_workers_call
deriving DecidableEq, Repr

/-- The lifecycle operations of the claim.  startOk and startFail distinguish
whether start_workers_ throws; destroy is the destructor (which calls stop);
join models async_core::join. -/
inductive LifeOp
  | startOk
  | startFail
  | stop
  | destroy
  | join
deriving DecidableEq, Repr

/-- One lifecycle operation, run from state s on a core whose node array is
empty iff isEmpty.  Returns the final state and the event trace.

start and stop return immediately when the node array is empty, before
acquiring any mutex.  Otherwise start unconditionally stores starting, runs
start_workers_ and stores running (or idle and rethrows on failure); stop
stores stopping, stops the workers and reaches join_workers_, which (the
joined_ flag being false whenever the operations are serialized) joins all
workers and stores idle.  The destructor just calls stop.  join throws when
the state is not running; a join that does return implies a concurrent stop
performed the store of stopping, after which the joining thread itself
performs the final store of idle, so its observable store pair coincides
with that of stop. -/
def run_op (isEmpty : Bool) (s : CoreState) : LifeOp → CoreState × List LifeEvent
  | .startOk =>
    if isEmpty then (s, [])
    else (.running,
      [.lock_stop_mutex, .lock_join_mutex, .set_state .starting,
       .start_workers_call, .set_state .running])
  | .startFail =>
    if isEmpty then (s, [])
    else (.idle,
      [.lock_stop_mutex, .lock_join_mutex, .set_state .starting, .set_state .idle])
  | .stop =>
    if isEmpty then (s, [])
    else (.idle,
      [.lock_stop_mutex, .set_state .stopping, .stop_workers_call,
       .join_workers_call, .set_state .idle])
  | .destroy =>
    if isEmpty then (s, [])
    else (.idle,
      [.lock_stop_mutex, .set_state .stopping, .stop_workers_call,
       .join_workers_call, .set_state .idle])
  | .join =>
    if s ≠ CoreState.running then (s, [])
    else (.idle,
      [.set_state .stopping, .stop_workers_call, .join_workers_call, .set_state .idle])

/-- A sequence of lifecycle operations run from state s. -/
def run_ops (isEmpty : Bool) (s : CoreState) : List LifeOp → CoreState × List LifeEvent
  | [] => (s, [])
  | op :: rest =>
    let r1 := run_op isEmpty s op
    let r2 := run_ops isEmpty r1.1 rest
    (r2.1, r1.2 ++ r2.2)

/-- The stores to the atomic state variable contained in an event trace. -/
def state_stores : List LifeEvent → List CoreState
  | [] => []
  | .set_state s :: rest => s :: state_stores rest
  | _ :: rest => state_stores rest

/-- The transitions of the state variable: each store, paired with the value
it overwrites. -/
def transitions_from (s0 : CoreState) : List CoreState → List (CoreState × CoreState)
  | [] => []
  | s :: rest => (s0, s) :: transitions_from s rest

/-- The value of the state variable after a list of stores. -/
def last_state (s0 : CoreState) : List CoreState → CoreState
  | [] => s0
  | s :: rest => last_state s rest

/-- The transition list asserted by the claim. -/
def claim_transitions : List (CoreState × CoreState) :=
  [(.idle, .starting), (.starting, .running), (.starting, .idle),
   (.running, .stopping), (.stopping, .idle)]

/-- The transitions the code actually performs: additionally running to
starting (start does not check the current state) and idle to stopping
(stop and the destructor are unconditional). -/
def actual_transitions : List (CoreState × CoreState) :=
  [(.idle, .starting), (.running, .starting), (.starting, .running),
   (.starting, .idle), (.idle, .stopping), (.running, .stopping), (.stopping, .idle)]

-- ===========================================================================
-- Node array construction (async_core::node_array)
-- ===========================================================================

/-- Observable steps of the node_array constructor and of delete_nodes_. -/
inductive BuildEvent
  | construct (id : Nat)
  | destroy (id : Nat)
deriving DecidableEq, Repr

/-- Embedding of node_array::delete_nodes_: destroys nodes
nodes_initialized - 1 down to 0, in that order. -/
def delete_nodes (nodes_initialized : Nat) : List BuildEvent :=
  (List.range nodes_initialized).reverse.map BuildEvent.destroy

/-- The constructor loop of node_array, over the remaining descriptor ids,
carrying nodes_initialized.  fail i = some e models the in-place construction
of node i throwing e; on a throw the catch block runs delete_nodes_ with the
current count and rethrows the same exception. -/
def node_array_construct_go {E : Type} (fail : Nat → Option E) :
    List Nat → Nat → List BuildEvent × Option E
  | [], _ => ([], none)
  | i :: rest, initialized =>
    match fail i with
    | some e => (delete_nodes initialized, some e)
    | none =>
      let r := node_array_construct_go fail rest (initialized + 1)
      (BuildEvent.construct i :: r.1, r.2)

/-- Embedding of the node_array constructor over N descriptors. -/
def node_array_construct {E : Type} (fail : Nat → Option E) (N : Nat) :
    List BuildEvent × Option E :=
  node_array_construct_go fail (List.range N) 0

-- ===========================================================================
-- Tree shape shared by the worker loops and start_workers_
-- ===========================================================================

/-- The children_ptrs_ adjacency of the runtime node array, derived from the
blueprint parent ids: the constructor wires each non-root id, in increasing
id order, into the children list of its parent. -/
def tree_children (parent : Nat → Nat) (N : Nat) (p : Nat) : List Nat :=
  (List.range N).filter (fun i => i != 0 && parent i == p)

/-- The invariant context_tree establishes: node 0 is its own parent and
every other node has a smaller parent id. -/
def valid_tree (parent : Nat → Nat) (N : Nat) : Prop :=
  parent 0 = 0 ∧ ∀ i, i < N → 0 < i → parent i < i

/-- Proper descendant relation induced by the parent map: d is below n. -/
inductive IsDesc (parent : Nat → Nat) : Nat → Nat → Prop
  | base (d n : Nat) : d ≠ 0 → parent d = n → IsDesc parent d n
  | step (d m n : Nat) : d ≠ 0 → parent d = m → IsDesc parent m n → IsDesc parent d n

-- ===========================================================================
-- Worker loops (async_core::worker_run_ and helpers)
-- ===========================================================================

abbrev TaskError := Nat

abbrev SinkError := Nat

/-- Embedding of async_core::worker_poll_context_: the poll primitive call is
wrapped in try/catch; outcome is the C++ result of the poll method, with
error e modelling an std::exception escaping a user task.  A caught
exception is passed to the exception handler when one is set, and the call
returns 0; an exception thrown by the handler itself is not caught. -/
def worker_poll_context (sink : Option (TaskError → Except SinkError Unit))
    (outcome : Except TaskError Nat) : Except SinkError Nat :=
  match outcome with
  | .ok n => .ok n
  | .error e =>
    match sink with
    | some handler =>
      match handler e with
      | .ok _ => .ok 0
      | .error se => .error se
    | none => .ok 0

/-- Embedding of worker_get_child_contexts_to_run_ when the children poll
policy is not disabled: a queue-based breadth-first walk of the subtree,
collecting the io_context of every enabled node visited.  The fuel bounds
the number of loop iterations; any fuel at least the number of tree nodes
is enough, since each node is enqueued at most once. -/
def worker_collect_go (children : Nat → List Nat) (enabled : Nat → Bool) :
    Nat → List Nat → List Nat → List Nat
  | 0, _, acc => acc
  | _ + 1, [], acc => acc
  | fuel + 1, nd :: rest, acc =>
    let acc2 := if enabled nd then acc ++ [nd] else acc
    worker_collect_go children enabled fuel (rest ++ children nd) acc2

/-- Embedding of worker_get_child_contexts_to_run_. -/
def worker_get_child_contexts_to_run (children : Nat → List Nat)
    (enabled : Nat → Bool) (fuel : Nat) (n : Nat) (p : WorkerParameters) : List Nat :=
  if p.children_poll_policy ≠ poll_disabled then
    worker_collect_go children enabled fuel (children n) []
  else []

/-- The regime a worker settles into, per the dispatch in worker_run_:
the single regime runs one io_context with its full run method, the
multiple regime runs the polling loop over the self context (when present)
and the collected child contexts. -/
inductive Regime
  | nothing
  | single (q : Nat)
  | multiple (selfq : Option Nat) (childqs : List Nat)
deriving DecidableEq, Repr

/-- Embedding of the dispatch performed by async_core::worker_run_. -/
def worker_run_classify (children : Nat → List Nat) (enabled : Nat → Bool)
    (fuel : Nat) (n : Nat) (p : WorkerParameters) : Regime :=
  let self_context : Option Nat :=
    if p.self_poll_policy ≠ poll_disabled ∧ enabled n then some n else none
  let child_contexts := worker_get_child_contexts_to_run children enabled fuel n p
  if child_contexts.isEmpty ∧ self_context.isSome then
    Regime.single (self_context.getD n)
  else if child_contexts.length = 1 ∧ self_context = none then
    Regime.single (child_contexts.getD 0 0)
  else if 1 < child_contexts.length ∨ self_context.isSome then
    Regime.multiple self_context child_contexts
  else Regime.nothing

/-- Observable actions of a worker loop iteration. -/
inductive WorkerEvent
  | delay
  | run_queue (q : Nat)
deriving DecidableEq, Repr

def is_run_event : WorkerEvent → Bool
  | .run_queue _ => true
  | .delay => false

/-- What one iteration of worker_run_single_ observes: the scheduler state
read by get_state, the outcome of the run call on the io_context, and the
value of context.stopped() afterwards. -/
structure SingleObs where
  observed_state : CoreState
  poll_outcome : Except TaskError Nat
  stopped_after : Bool
deriving Repr

/-- Embedding of async_core::worker_run_single_, driven by the list of
per-iteration observations: loop while the observed state is not stopping;
once wait_rounds reaches delay_rounds, reset it and apply the delay; call
the full run method through worker_poll_context_ (an uncaught sink
exception terminates the loop there); count a wait round when the context
reports stopped. -/
def worker_run_single_go (sink : Option (TaskError → Except SinkError Unit))
    (p : WorkerParameters) (q : Nat) :
    List SingleObs → Nat → List WorkerEvent × Option SinkError
  | [], _ => ([], none)
  | o :: rest, wait_rounds =>
    if o.observed_state = CoreState.stopping then ([], none)
    else
      let d : List WorkerEvent × Nat :=
        if p.delay_rounds ≤ wait_rounds then ([WorkerEvent.delay], 0) else ([], wait_rounds)
      match worker_poll_context sink o.poll_outcome with
      | .error se => (d.1 ++ [WorkerEvent.run_queue q], some se)
      | .ok _ =>
        let wr2 := if o.stopped_after then d.2 + 1 else d.2
        let r := worker_run_single_go sink p q rest wr2
        (d.1 ++ WorkerEvent.run_queue q :: r.1, r.2)

-- ===========================================================================
-- Coroutine value slots and the caller (dkuk/spawn.hpp)
-- ===========================================================================

/-- Increment of the std::atomic unsigned int ready_ counter. -/
def uint_succ (n : Nat) : Nat := (n + 1) % 4294967296

/-- Embedding of coroutine_context::value: the two-step counter and the
stored payload (the tuple built by forward_as_tuple, or the single value).
stored starts out default-initialized. -/
structure ValueSlot (α : Type) where
  ready : Nat
  stored : α
deriving DecidableEq, Repr

def value_initial {α : Type} (dflt : α) : ValueSlot α :=
  { ready := 0, stored := dflt }

/-- Embedding of value::set: increment the counter; exactly when the new
count is 2 the arguments are written and true is returned (telling the
caller to resume the coroutine). -/
def value_set {α : Type} (s : ValueSlot α) (args : α) : ValueSlot α × Bool :=
  let r := uint_succ s.ready
  if r = 2 then ({ ready := r, stored := args }, true)
  else ({ s with ready := r }, false)

/-- Embedding of the first half of value::get: increment the counter and
yield exactly when the new count is not 2 (returned Bool).  The value
eventually handed back is whatever the slot holds afterwards. -/
def value_get_step {α : Type} (s : ValueSlot α) : ValueSlot α × Bool :=
  let r := uint_succ s.ready
  ({ s with ready := r }, r ≠ 2)

/-- The complete handshake in the order: coroutine reaches get first, then
the completion handler fires.  Returns (value read by get, handler stored
the arguments, handler resumed the coroutine through the strand). -/
def run_get_first {α : Type} (dflt args : α) : α × Bool × Bool :=
  let s0 := value_initial dflt
  let g := value_get_step s0
  let st := value_set g.1 args
  (st.1.stored, st.2, st.2)

/-- The complete handshake in the other order: the completion handler fires
before the coroutine reaches get (synchronous completion).  Returns the
same triple. -/
def run_set_first {α : Type} (dflt args : α) : α × Bool × Bool :=
  let s0 := value_initial dflt
  let st := value_set s0 args
  let g := value_get_step st.1
  (g.1.stored, st.2, st.2)

/-- Embedding of the error-code specialization
value with boost::system::error_code in first position: additionally an
internal error_code field (default constructed, value 0 meaning success). -/
structure EcValueSlot (α : Type) where
  ready : Nat
  ec : Nat
  stored : α
deriving DecidableEq, Repr

def ec_value_initial {α : Type} (dflt : α) : EcValueSlot α :=
  { ready := 0, ec := 0, stored := dflt }

/-- The error-code binding state of a coroutine_context: whether an external
error_code reference was installed through the indexing operator, and the
current value of that external variable. -/
structure EcContext where
  has_external : Bool
  external_ec : Nat
deriving DecidableEq, Repr

/-- Embedding of the error-code variant of value::set: on the second arrival
the error code is written through best_ec_ (the external reference when one
is installed, the internal field otherwise) and the arguments are stored. -/
def ec_value_set {α : Type} (ctx : EcContext) (s : EcValueSlot α) (ec : Nat)
    (args : α) : EcContext × EcValueSlot α × Bool :=
  let r := uint_succ s.ready
  if r = 2 then
    if ctx.has_external then
      ({ ctx with external_ec := ec }, { s with ready := r, stored := args }, true)
    else
      (ctx, { ready := r, ec := ec, stored := args }, true)
  else (ctx, { s with ready := r }, false)

/-- The counting-and-yield half of the error-code variant of value::get. -/
def ec_value_get_step {α : Type} (s : EcValueSlot α) : EcValueSlot α × Bool :=
  let r := uint_succ s.ready
  ({ s with ready := r }, r ≠ 2)

/-- The result half of the error-code variant of value::get: after the
optional yield, a system_error carrying the internal code is thrown exactly
when that internal code is nonzero; the external code is never checked. -/
def ec_value_get_result {α : Type} (s : EcValueSlot α) : Except Nat α :=
  if s.ec ≠ 0 then .error s.ec else .ok s.stored

/-- Error-code handshake, coroutine first: get counts to 1 and yields, the
handler counts to 2, stores through best_ec_ and resumes, get then checks
the internal code and returns.  Result: final external variable, whether
the handler stored, and the outcome of get. -/
def ec_run_get_first {α : Type} (dflt : α) (hasExt : Bool) (ec : Nat) (args : α) :
    Nat × Bool × Except Nat α :=
  let ctx0 : EcContext := { has_external := hasExt, external_ec := 0 }
  let s0 := ec_value_initial dflt
  let g := ec_value_get_step s0
  let st := ec_value_set ctx0 g.1 ec args
  (st.1.external_ec, st.2.2, ec_value_get_result st.2.1)

/-- Error-code handshake, handler first (synchronous completion). -/
def ec_run_set_first {α : Type} (dflt : α) (hasExt : Bool) (ec : Nat) (args : α) :
    Nat × Bool × Except Nat α :=
  let ctx0 : EcContext := { has_external := hasExt, external_ec := 0 }
  let s0 := ec_value_initial dflt
  let st := ec_value_set ctx0 s0 ec args
  let g := ec_value_get_step st.2.1
  (st.1.external_ec, st.2.2, ec_value_get_result g.1)

/-- Embedding of coroutine_context::caller: only whether a value slot is
bound (value_ptr_ not null) matters for the dispatch of operator(). -/
structure Caller where
  bound : Bool
deriving DecidableEq, Repr

/-- coroutine_context::get_caller() without a value argument leaves the slot
pointer null. -/
def get_caller_unbound : Caller := { bound := false }

/-- Embedding of caller::bind_value. -/
def bind_value (c : Caller) : Caller := { c with bound := true }

/-- Embedding of caller::operator(): with no bound slot a logic_error is
thrown before anything else happens; otherwise value::set runs and, when it
returns true, the coroutine is resumed through its strand (the returned
Bool). -/
def caller_invoke {α : Type} (c : Caller) (s : ValueSlot α) (args : α) :
    Except String (ValueSlot α × Bool) :=
  if c.bound then .ok (value_set s args)
  else .error "Incorrect coroutine caller: Value not bound"

-- ===========================================================================
-- Breadth-first ordering (async_core::order_nodes_) and start_workers_
-- ===========================================================================

/-- The inner for loop of order_nodes_: push every not yet visited child,
marking it visited, in the order of the children list. -/
def push_children : List Nat → List Nat → List Bool → List Nat × List Bool
  | [], ordered, visited => (ordered, visited)
  | c :: rest, ordered, visited =>
    if visited.getD c false then push_children rest ordered visited
    else push_children rest (ordered ++ [c]) (visited.set c true)

/-- The while loop of order_nodes_, with explicit fuel: while fewer than N
nodes are ordered, process the node at the read position (appending its
unvisited children) and advance the position.  On a valid tree fuel N is
enough to order every node. -/
def order_nodes_go (children : Nat → List Nat) (N : Nat) :
    Nat → List Nat → List Bool → Nat → List Nat
  | 0, ordered, _, _ => ordered
  | fuel + 1, ordered, visited, ptr =>
    if ordered.length < N then
      let st := push_children (children (ordered.getD ptr 0)) ordered visited
      order_nodes_go children N fuel st.1 st.2 (ptr + 1)
    else ordered

/-- Embedding of async_core::order_nodes_: start from the root (node 0,
already marked visited) and run the loop. -/
def order_nodes (parent : Nat → Nat) (N : Nat) : List Nat :=
  order_nodes_go (tree_children parent N) N N [0] ((List.replicate N false).set 0 true) 0

/-- Observable actions of async_core::start_workers_ per node: installing
the work guard pin on the io_context, then launching one thread per
configured worker slot. -/
inductive StartEvent
  | pin (id : Nat)
  | launch (id : Nat) (slot : Nat)
deriving DecidableEq, Repr

/-- The pin of a node followed by the launches of its worker slots, in slot
order, as performed by the body of the start_workers_ loop. -/
def node_start_events (workers : Nat → Nat) (n : Nat) : List StartEvent :=
  StartEvent.pin n :: (List.range (workers n)).map (StartEvent.launch n)

/-- Embedding of async_core::start_workers_: empty node array short-circuits;
otherwise iterate the breadth-first ordering in reverse, pinning each node
and launching its workers. -/
def start_workers (parent : Nat → Nat) (workers : Nat → Nat) (N : Nat) :
    List StartEvent :=
  if N = 0 then []
  else ((order_nodes parent N).reverse).flatMap (node_start_events workers)

/-- Loop invariant of order_nodes_go: ordered holds distinct in-range ids
starting from the root; visited mirrors membership; each listed non-root
has its parent listed earlier, at an already processed position; the
children of every processed position form a contiguous block of ordered. -/
structure BfsInv (parent : Nat → Nat) (N : Nat)
    (ordered : List Nat) (visited : List Bool) (ptr : Nat) : Prop where
  nodup : ordered.Nodup
  vlen : visited.length = N
  mem_iff : ∀ i, i ∈ ordered ↔ visited.getD i false = true
  bounded : ∀ i ∈ ordered, i < N
  root_first : ordered.getD 0 0 = 0
  root_mem : 0 ∈ ordered
  parent_pos : ∀ a, a < ordered.length → ordered.getD a 0 ≠ 0 →
    ∃ k, k < a ∧ k < ptr ∧ ordered.getD k 0 = parent (ordered.getD a 0)
  children_infix : ∀ k, k < ptr → k < ordered.length →
    tree_children parent N (ordered.getD k 0) <:+: ordered

-- ===========================================================================
-- Concrete fixtures used to instantiate the theorems below
-- ===========================================================================

/-- A parameter record with every enum field outside its enumeration and a
zero round count. -/
def ex_params : WorkerParameters :=
  { self_poll_policy := 7
    children_poll_policy := -2
    delay_rounds := 0
    delay_policy := 9
    delay_value := 123 }

/-- A one-node blueprint whose node has one default worker slot. -/
def ex_tree : ContextTree :=
  { nodes := [{ parent_id := 0
                children_count := 0
                worker_parameters := [default_parameters]
                concurrency_hint := none
                enabled := true }] }

/-- The parent map of a three-node chain: 0 is the root, 1 under 0, 2 under 1. -/
def ex_parent : Nat → Nat := fun i => [0, 0, 1].getD i 0

def ex_workers : Nat → Nat := fun _ => 1

/-- An exception sink that rethrows on task error 9 and returns otherwise. -/
def ex_sink : TaskError → Except SinkError Unit :=
  fun e => if e = 9 then .error 7 else .ok ()

/-- Three observed iterations: two with work, one observing stopping. -/
def ex_obs : List SingleObs :=
  [{ observed_state := .running, poll_outcome := .ok 1, stopped_after := false },
   { observed_state := .running, poll_outcome := .error 3, stopped_after := true },
   { observed_state := .stopping, poll_outcome := .ok 0, stopped_after := false }]

-- ===========================================================================
-- Theorems
-- ===========================================================================

/-- Normalization properties of fixed_worker_parameters_. -/
theorem fixed_props (p : WorkerParameters) :
    (¬ (p.self_poll_policy = poll_disabled ∨ p.self_poll_policy = poll_one ∨
        p.self_poll_policy = poll_all ∨ p.self_poll_policy = run_one) →
      (fixed_worker_parameters p).self_poll_policy = poll_all)
    ∧ ((p.self_poll_policy = poll_disabled ∨ p.self_poll_policy = poll_one ∨
        p.self_poll_policy = poll_all ∨ p.self_poll_policy = run_one) →
      (fixed_worker_parameters p).self_poll_policy = p.self_poll_policy)
    ∧ (¬ (p.children_poll_policy = poll_disabled ∨ p.children_poll_policy = poll_one ∨
        p.children_poll_policy = poll_all ∨ p.children_poll_policy = run_one) →
      (fixed_worker_parameters p).children_poll_policy = poll_one)
    ∧ ((p.children_poll_policy = poll_disabled ∨ p.children_poll_policy = poll_one ∨
        p.children_poll_policy = poll_all ∨ p.children_poll_policy = run_one) →
      (fixed_worker_parameters p).children_poll_policy = p.children_poll_policy)
    ∧ (p.delay_rounds < 1 → (fixed_worker_parameters p).delay_rounds = 1)
    ∧ (1 ≤ p.delay_rounds → (fixed_worker_parameters p).delay_rounds = p.delay_rounds)
    ∧ (¬ (p.delay_policy = delay_no_delay ∨ p.delay_policy = delay_yield ∨
        p.delay_policy = delay_sleep) →
      (fixed_worker_parameters p).delay_policy = delay_yield)
    ∧ ((p.delay_policy = delay_no_delay ∨ p.delay_policy = delay_yield ∨
        p.delay_policy = delay_sleep) →
      (fixed_worker_parameters p).delay_policy = p.delay_policy)
    ∧ (fixed_worker_parameters p).delay_value = p.delay_value := by
  simp only [fixed_worker_parameters]
  split_ifs <;> simp_all [default_parameters]

/-- add_worker stores exactly the fixed record at the fresh slot. -/
theorem add_worker_stores (t : ContextTree) (context_id : Nat) (p : WorkerParameters)
    (hid : context_id < t.nodes.length) :
    ∃ t2 wid, add_worker t context_id p = .ok (t2, wid) ∧
      (t2.nodes.getD context_id default_tree_node).worker_parameters.getD wid default_parameters
        = fixed_worker_parameters p := by
  simp only [add_worker, if_pos hid]
  refine ⟨_, _, rfl, ?_⟩
  simp only [List.getD_eq_getElem?_getD, List.getElem?_set_self hid, Option.getD_some]
  simp [List.getElem?_concat_length]

/-- set_worker_parameters stores exactly the fixed record at the given slot. -/
theorem set_worker_parameters_stores (t : ContextTree) (context_id slot : Nat)
    (p : WorkerParameters)
    (hid : context_id < t.nodes.length)
    (hslot : slot < (t.nodes.getD context_id default_tree_node).worker_parameters.length) :
    ∃ t3, set_worker_parameters t context_id slot p = .ok t3 ∧
      (t3.nodes.getD context_id default_tree_node).worker_parameters.getD slot default_parameters
        = fixed_worker_parameters p := by
  unfold set_worker_parameters
  rw [if_pos hid, if_pos hslot]
  refine ⟨_, rfl, ?_⟩
  have hslot2 : slot < ((t.nodes[context_id]?.getD default_tree_node).worker_parameters).length := by
    simpa [List.getD_eq_getElem?_getD] using hslot
  simp [List.getD_eq_getElem?_getD, List.getElem?_set_self hid, List.getElem?_set_self hslot2]

/-- C5: every worker-parameters record stored through add_worker or
set_worker_parameters is the fixed record: an out-of-enumeration self poll
becomes poll_all, an out-of-enumeration children poll becomes poll_one,
a round count below 1 becomes 1, an out-of-enumeration delay policy
becomes yield, in-range values and the delay value are kept, and both
operations succeed without raising. -/
theorem C5_stored_worker_parameters_normalized (t : ContextTree)
    (context_id slot : Nat) (p : WorkerParameters)
    (hid : context_id < t.nodes.length)
    (hslot : slot < (t.nodes.getD context_id default_tree_node).worker_parameters.length) :
    (∃ t2 wid, add_worker t context_id p = .ok (t2, wid) ∧
      (t2.nodes.getD context_id default_tree_node).worker_parameters.getD wid default_parameters
        = fixed_worker_parameters p)
    ∧ (∃ t3, set_worker_parameters t context_id slot p = .ok t3 ∧
      (t3.nodes.getD context_id default_tree_node).worker_parameters.getD slot default_parameters
        = fixed_worker_parameters p)
    ∧ (¬ (p.self_poll_policy = poll_disabled ∨ p.self_poll_policy = poll_one ∨
        p.self_poll_policy = poll_all ∨ p.self_poll_policy = run_one) →
      (fixed_worker_parameters p).self_poll_policy = poll_all)
    ∧ ((p.self_poll_policy = poll_disabled ∨ p.self_poll_policy = poll_one ∨
        p.self_poll_policy = poll_all ∨ p.self_poll_policy = run_one) →
      (fixed_worker_parameters p).self_poll_policy = p.self_poll_policy)
    ∧ (¬ (p.children_poll_policy = poll_disabled ∨ p.children_poll_policy = poll_one ∨
        p.children_poll_policy = poll_all ∨ p.children_poll_policy = run_one) →
      (fixed_worker_parameters p).children_poll_policy = poll_one)
    ∧ ((p.children_poll_policy = poll_disabled ∨ p.children_poll_policy = poll_one ∨
        p.children_poll_policy = poll_all ∨ p.children_poll_policy = run_one) →
      (fixed_worker_parameters p).children_poll_policy = p.children_poll_policy)
    ∧ (p.delay_rounds < 1 → (fixed_worker_parameters p).delay_rounds = 1)
    ∧ (1 ≤ p.delay_rounds → (fixed_worker_parameters p).delay_rounds = p.delay_rounds)
    ∧ (¬ (p.delay_policy = delay_no_delay ∨ p.delay_policy = delay_yield ∨
        p.delay_policy = delay_sleep) →
      (fixed_worker_parameters p).delay_policy = delay_yield)
    ∧ ((p.delay_policy = delay_no_delay ∨ p.delay_policy = delay_yield ∨
        p.delay_policy = delay_sleep) →
      (fixed_worker_parameters p).delay_policy = p.delay_policy)
    ∧ (fixed_worker_parameters p).delay_value = p.delay_value := by
  refine ⟨add_worker_stores t context_id p hid,
    set_worker_parameters_stores t context_id slot p hid hslot, ?_⟩
  exact fixed_props p

/-- C5 witness: the fixture tree and the all-invalid parameter record. -/
theorem C5_witness :
    0 < ex_tree.nodes.length ∧
    0 < (ex_tree.nodes.getD 0 default_tree_node).worker_parameters.length ∧
    (∃ t2 wid, add_worker ex_tree 0 ex_params = .ok (t2, wid) ∧
      (t2.nodes.getD 0 default_tree_node).worker_parameters.getD wid default_parameters
        = fixed_worker_parameters ex_params) := by
  refine ⟨by decide, by decide, ?_⟩
  exact (C5_stored_worker_parameters_normalized ex_tree 0 0 ex_params
    (by decide) (by decide)).1


theorem construct_go_ok_front {E : Type} (fail : Nat → Option E)
    (l1 : List Nat) (l2 : List Nat) (init : Nat) (h : ∀ i ∈ l1, fail i = none) :
    node_array_construct_go fail (l1 ++ l2) init =
      ((l1.map BuildEvent.construct) ++ (node_array_construct_go fail l2 (init + l1.length)).1,
       (node_array_construct_go fail l2 (init + l1.length)).2) := by
  induction l1 generalizing init with
  | nil => simp [node_array_construct_go]
  | cons a as ih =>
    have ha : fail a = none := h a (by simp)
    have hrest : ∀ i ∈ as, fail i = none := fun i hi => h i (by simp [hi])
    have harith : init + (as.length + 1) = (init + 1) + as.length := by omega
    simp [node_array_construct_go, ha, ih (init + 1) hrest, harith]

/-- C6: when constructing node k throws e after nodes 0..k-1 were built, the
constructor trace is construct 0, ..., construct k-1 followed by
destroy k-1, ..., destroy 0 and the same exception propagates. -/
theorem C6_node_array_unwinds_in_reverse {E : Type} (fail : Nat → Option E)
    (N k : Nat) (e : E) (hk : k < N)
    (hok : ∀ i, i < k → fail i = none) (hfail : fail k = some e) :
    node_array_construct fail N =
      ((List.range k).map BuildEvent.construct ++ delete_nodes k, some e) := by
  have hsplit : List.range N = List.range k ++ (List.range (N - k)).map (k + ·) := by
    rw [← List.range_add]
    congr 1
    omega
  obtain ⟨m, hm⟩ : ∃ m, N - k = m + 1 := ⟨N - k - 1, by omega⟩
  unfold node_array_construct
  rw [hsplit, construct_go_ok_front fail _ _ 0 (fun i hi => hok i (List.mem_range.mp hi))]
  rw [hm, List.range_succ_eq_map]
  simp [node_array_construct_go, hfail, List.length_range]

/-- C6 witness: three descriptors with the second construction throwing 99. -/
theorem C6_witness :
    (1 < 3 ∧ (fun i => if i = 1 then some (99 : Nat) else none) 1 = some 99) ∧
    node_array_construct (fun i => if i = 1 then some (99 : Nat) else none) 3 =
      ((List.range 1).map BuildEvent.construct ++ delete_nodes 1, some 99) := by
  refine ⟨⟨by decide, by decide⟩, ?_⟩
  exact C6_node_array_unwinds_in_reverse (fun i => if i = 1 then some 99 else none) 3 1 99
    (by decide) (by decide) (by decide)


theorem state_stores_append (l1 l2 : List LifeEvent) :
    state_stores (l1 ++ l2) = state_stores l1 ++ state_stores l2 := by
  induction l1 with
  | nil => rfl
  | cons e rest ih => cases e <;> simp [state_stores, ih]

theorem transitions_from_append (s : CoreState) (l1 l2 : List CoreState) :
    transitions_from s (l1 ++ l2) =
      transitions_from s l1 ++ transitions_from (last_state s l1) l2 := by
  induction l1 generalizing s with
  | nil => rfl
  | cons a rest ih => simp [transitions_from, last_state, ih]

theorem run_op_trans (s : CoreState) (op : LifeOp)
    (hs : s = CoreState.idle ∨ s = CoreState.running) :
    (∀ tr ∈ transitions_from s (state_stores (run_op false s op).2), tr ∈ actual_transitions)
    ∧ ((run_op false s op).1 = CoreState.idle ∨ (run_op false s op).1 = CoreState.running)
    ∧ last_state s (state_stores (run_op false s op).2) = (run_op false s op).1 := by
  rcases hs with h | h <;> subst h <;> cases op <;> decide

theorem run_ops_trans (ops : List LifeOp) :
    ∀ s, (s = CoreState.idle ∨ s = CoreState.running) →
      (∀ tr ∈ transitions_from s (state_stores (run_ops false s ops).2),
        tr ∈ actual_transitions)
      ∧ ((run_ops false s ops).1 = CoreState.idle ∨
         (run_ops false s ops).1 = CoreState.running) := by
  induction ops with
  | nil =>
    intro s hs
    exact ⟨by simp [run_ops, state_stores, transitions_from], hs⟩
  | cons op rest ih =>
    intro s hs
    obtain ⟨h1, h2, h3⟩ := run_op_trans s op hs
    obtain ⟨h4, h5⟩ := ih (run_op false s op).1 h2
    constructor
    · intro tr htr
      rw [show run_ops false s (op :: rest) =
            ((run_ops false (run_op false s op).1 rest).1,
             (run_op false s op).2 ++ (run_ops false (run_op false s op).1 rest).2) from rfl] at htr
      rw [state_stores_append, transitions_from_append, h3] at htr
      rcases List.mem_append.mp htr with h | h
      · exact h1 tr h
      · exact h4 tr h
    · exact h5

/-- C2 counterexample: on a core with at least one node, calling stop while
the state is idle (a second stop, or the destructor of a never-started
core) performs the transition idle to stopping, which the claim does not
allow. -/
theorem C2_counterexample :
    transitions_from CoreState.idle
        (state_stores (run_ops false CoreState.idle [LifeOp.stop]).2) =
      [(CoreState.idle, CoreState.stopping), (CoreState.stopping, CoreState.idle)]
    ∧ ((CoreState.idle, CoreState.stopping) : CoreState × CoreState) ∉ claim_transitions := by
  decide

/-- C2 amended: the state only changes through the transitions of
actual_transitions, namely the claimed idle to starting, starting to
running, starting to idle, running to stopping and stopping to idle,
plus running to starting (start does not check the current state) and
idle to stopping (stop and the destructor run unconditionally). -/
theorem C2_amended_state_transitions (ops : List LifeOp) :
    ∀ tr ∈ transitions_from CoreState.idle
        (state_stores (run_ops false CoreState.idle ops).2),
      tr ∈ actual_transitions :=
  (run_ops_trans ops CoreState.idle (Or.inl rfl)).1

/-- C2 witness: the transition idle to stopping occurs in the run of a
single stop and is admitted by the amended transition list. -/
theorem C2_witness :
    ((CoreState.idle, CoreState.stopping) : CoreState × CoreState) ∈
      transitions_from CoreState.idle
        (state_stores (run_ops false CoreState.idle [LifeOp.stop]).2)
    ∧ ((CoreState.idle, CoreState.stopping) : CoreState × CoreState) ∈ actual_transitions :=
  ⟨by decide, C2_amended_state_transitions [LifeOp.stop] _ (by decide)⟩

/-- C9: on a scheduler built from an empty blueprint every lifecycle
operation returns immediately with an empty event trace: no mutex is
acquired, no worker is launched, the state variable is never stored to and
therefore stays idle across any sequence of operations. -/
theorem C9_empty_blueprint_frame (s : CoreState) (ops : List LifeOp) :
    run_op true s LifeOp.startOk = (s, [])
    ∧ run_op true s LifeOp.startFail = (s, [])
    ∧ run_op true s LifeOp.stop = (s, [])
    ∧ run_op true s LifeOp.destroy = (s, [])
    ∧ run_ops true CoreState.idle ops = (CoreState.idle, []) := by
  refine ⟨rfl, rfl, rfl, rfl, ?_⟩
  induction ops with
  | nil => rfl
  | cons op rest ih => cases op <;> simpa [run_ops, run_op] using ih

/-- C1: evaluation at the failing input.  When the completion handler fires
before the coroutine reaches get (a synchronous completion), set counts the
counter to 1 only: it stores nothing and does not resume, and the
subsequent get returns the default-constructed slot value 0 instead of the
argument 42.  In the opposite order the handler does store and resume and
get reads 42, showing the loss is specific to the handler-first order the
claim also covers. -/
theorem C1_handler_first_loses_arguments :
    run_set_first (0 : Nat) 42 = (0, false, false)
    ∧ (run_set_first (0 : Nat) 42).1 ≠ 42
    ∧ run_get_first (0 : Nat) 42 = (42, true, true) := by
  decide

/-- C8: evaluation of the error-code variant.  In the order where the
coroutine reaches get first, the handler stores the code into the external
reference when one is installed (get returns normally even for nonzero
code 5), and into the internal field otherwise (get raises exactly for a
nonzero internal code).  At the failing input, the handler firing first
with an installed external reference, the code 5 is stored nowhere: the
external variable stays 0 and get returns the default value normally. -/
theorem C8_error_code_routing_and_loss :
    ec_run_get_first (0 : Nat) true 5 7 = (5, true, Except.ok 7)
    ∧ ec_run_get_first (0 : Nat) false 5 7 = (0, true, Except.error 5)
    ∧ ec_run_get_first (0 : Nat) false 0 7 = (0, true, Except.ok 7)
    ∧ ec_run_set_first (0 : Nat) true 5 7 = (0, false, Except.ok 0) := by
  exact ⟨rfl, rfl, rfl, rfl⟩

/-- C10: invoking a caller obtained without a bound value slot throws the
logic error before touching the slot or resuming, and after bind_value the
same invocation succeeds (running value::set and resuming exactly when set
returns true). -/
theorem C10_unbound_caller_raises (s : ValueSlot Nat) (args : Nat) :
    caller_invoke get_caller_unbound s args =
      Except.error "Incorrect coroutine caller: Value not bound"
    ∧ caller_invoke (bind_value get_caller_unbound) s args = Except.ok (value_set s args) := by
  exact ⟨rfl, rfl⟩


theorem run_single_events (sink : Option (TaskError → Except SinkError Unit))
    (p : WorkerParameters) (q : Nat)
    (hsink : ∀ oc, ∃ m, worker_poll_context sink oc = .ok m) :
    ∀ (obs : List SingleObs) (wr : Nat),
      ((worker_run_single_go sink p q obs wr).1.filter is_run_event).length =
        (obs.takeWhile (fun o => o.observed_state != CoreState.stopping)).length
      ∧ (worker_run_single_go sink p q obs wr).2 = none := by
  intro obs
  induction obs with
  | nil => intro wr; simp [worker_run_single_go]
  | cons o rest ih =>
    intro wr
    by_cases h : o.observed_state = CoreState.stopping
    · simp [worker_run_single_go, h]
    · obtain ⟨m, hm⟩ := hsink o.poll_outcome
      by_cases hd : p.delay_rounds ≤ wr
      · simp [worker_run_single_go, h, hd, hm, is_run_event, ih]
      · simp [worker_run_single_go, h, hd, hm, is_run_event, ih]


theorem classify_single_iff (children : Nat → List Nat) (enabled : Nat → Bool)
    (fuel n q : Nat) (p : WorkerParameters) :
    worker_run_classify children enabled fuel n p = Regime.single q ↔
      (((p.self_poll_policy ≠ poll_disabled ∧ enabled n = true)
          ∧ worker_get_child_contexts_to_run children enabled fuel n p = [] ∧ q = n)
        ∨ (¬ (p.self_poll_policy ≠ poll_disabled ∧ enabled n = true)
          ∧ worker_get_child_contexts_to_run children enabled fuel n p = [q])) := by
  by_cases hs : p.self_poll_policy ≠ poll_disabled ∧ enabled n = true
  · rcases hC : worker_get_child_contexts_to_run children enabled fuel n p with _ | ⟨x, xs⟩
    · simp [worker_run_classify, hC, hs]
      tauto
    · simp [worker_run_classify, hC, hs]
  · rcases hC : worker_get_child_contexts_to_run children enabled fuel n p with _ | ⟨x, xs⟩
    · simp [worker_run_classify, hC, hs]
    · rcases xs with _ | ⟨y, ys⟩
      · simp [worker_run_classify, hC, hs]
      · simp [worker_run_classify, hC, hs]


theorem classify_multiple (children : Nat → List Nat) (enabled : Nat → Bool)
    (fuel n : Nat) (p : WorkerParameters)
    (hne : (p.self_poll_policy ≠ poll_disabled ∧ enabled n = true) ∨
      worker_get_child_contexts_to_run children enabled fuel n p ≠ [])
    (hnx : ¬ (((p.self_poll_policy ≠ poll_disabled ∧ enabled n = true)
          ∧ worker_get_child_contexts_to_run children enabled fuel n p = [])
        ∨ (¬ (p.self_poll_policy ≠ poll_disabled ∧ enabled n = true)
          ∧ (worker_get_child_contexts_to_run children enabled fuel n p).length = 1))) :
    worker_run_classify children enabled fuel n p =
      Regime.multiple
        (if p.self_poll_policy ≠ poll_disabled ∧ enabled n = true then some n else none)
        (worker_get_child_contexts_to_run children enabled fuel n p) := by
  by_cases hs : p.self_poll_policy ≠ poll_disabled ∧ enabled n = true
  · rcases hC : worker_get_child_contexts_to_run children enabled fuel n p with _ | ⟨x, xs⟩
    · exact absurd (Or.inl ⟨hs, hC⟩) hnx
    · simp [worker_run_classify, hC, hs]
  · rcases hC : worker_get_child_contexts_to_run children enabled fuel n p with _ | ⟨x, xs⟩
    · rcases hne with h | h
      · exact absurd h hs
      · exact absurd hC h
    · rcases xs with _ | ⟨y, ys⟩
      · exact absurd (Or.inr ⟨hs, by rw [hC]; rfl⟩) hnx
      · simp [worker_run_classify, hC, hs]


/-- C3: the dispatch of worker_run_ selects the single-queue regime exactly
when the self queue is set and no child queue was collected (then the self
queue is run) xor no self queue is set and exactly one child queue was
collected (then that child queue is run); every other non-empty
classification selects the multi-queue polling loop; and in the
single-queue regime the loop calls the full run primitive once per
iteration until the first iteration that observes the stopping state,
and applies the idle delay at exactly the iterations whose accumulated
wait rounds have reached the configured delay_rounds. -/
theorem C3_single_queue_regime (children : Nat → List Nat) (enabled : Nat → Bool)
    (fuel n q : Nat) (p : WorkerParameters) (obs : List SingleObs) :
    (worker_run_classify children enabled fuel n p = Regime.single q ↔
      (((p.self_poll_policy ≠ poll_disabled ∧ enabled n = true)
          ∧ worker_get_child_contexts_to_run children enabled fuel n p = [] ∧ q = n)
        ∨ (¬ (p.self_poll_policy ≠ poll_disabled ∧ enabled n = true)
          ∧ worker_get_child_contexts_to_run children enabled fuel n p = [q])))
    ∧ (((p.self_poll_policy ≠ poll_disabled ∧ enabled n = true) ∨
          worker_get_child_contexts_to_run children enabled fuel n p ≠ []) →
        ¬ (((p.self_poll_policy ≠ poll_disabled ∧ enabled n = true)
            ∧ worker_get_child_contexts_to_run children enabled fuel n p = [])
          ∨ (¬ (p.self_poll_policy ≠ poll_disabled ∧ enabled n = true)
            ∧ (worker_get_child_contexts_to_run children enabled fuel n p).length = 1)) →
        worker_run_classify children enabled fuel n p =
          Regime.multiple
            (if p.self_poll_policy ≠ poll_disabled ∧ enabled n = true then some n else none)
            (worker_get_child_contexts_to_run children enabled fuel n p))
    ∧ ((worker_run_single_go none p q obs 0).1.filter is_run_event).length =
        (obs.takeWhile (fun o2 => o2.observed_state != CoreState.stopping)).length
    ∧ (∀ (o : SingleObs) (rest : List SingleObs) (wr : Nat),
        (worker_run_single_go none p q (o :: rest) wr).1.head? = some WorkerEvent.delay ↔
          (o.observed_state ≠ CoreState.stopping ∧ p.delay_rounds ≤ wr)) := by
  refine ⟨classify_single_iff children enabled fuel n q p,
    fun hne hnx => classify_multiple children enabled fuel n p hne hnx,
    (run_single_events none p q
      (fun oc => by cases oc <;> exact ⟨_, rfl⟩) obs 0).1, ?_⟩
  intro o rest wr
  by_cases h : o.observed_state = CoreState.stopping
  · simp [worker_run_single_go, h]
  · by_cases hd : p.delay_rounds ≤ wr
    · rcases hoc : o.poll_outcome with k | e <;>
        simp [worker_run_single_go, h, hd, hoc, worker_poll_context]
    · rcases hoc : o.poll_outcome with k | e <;>
        simp [worker_run_single_go, h, hd, hoc, worker_poll_context]

/-- C3 witness: in the three-node chain, the leaf worker with default
parameters runs the single-queue regime on its own queue, and over the
fixture observations the single-queue loop performs one run call per
iteration before stopping is observed. -/
theorem C3_witness :
    worker_run_classify (tree_children ex_parent 3) (fun _ => true) 3 2 default_parameters
      = Regime.single 2
    ∧ ((worker_run_single_go none default_parameters 2 ex_obs 0).1.filter is_run_event).length
        = 2 :=
  ⟨(C3_single_queue_regime (tree_children ex_parent 3) (fun _ => true) 3 2 2
      default_parameters ex_obs).1.mpr (by decide),
   ((C3_single_queue_regime (tree_children ex_parent 3) (fun _ => true) 3 2 2
      default_parameters ex_obs).2.2.1).trans (by decide)⟩

/-- C7: a successful poll returns its count unchanged; an exception escaping
a user task is caught, passed to the exception sink and the call returns 0,
after which the loop goes on to the next iteration (proved by the run-count
equality holding across task errors when the sink returns); an exception
thrown by the sink itself is not caught: it propagates out of the poll
call, the loop stops at that iteration and the worker terminates with that
exception. -/
theorem C7_task_exception_sink_policy (sinkF : TaskError → Except SinkError Unit)
    (e : TaskError) (se : SinkError) (n : Nat) (p : WorkerParameters) (q : Nat)
    (o : SingleObs) (rest obs : List SingleObs) (wr : Nat) :
    worker_poll_context (some sinkF) (Except.ok n) = Except.ok n
    ∧ (sinkF e = Except.ok () → worker_poll_context (some sinkF) (Except.error e) = Except.ok 0)
    ∧ (sinkF e = Except.error se →
        worker_poll_context (some sinkF) (Except.error e) = Except.error se)
    ∧ (o.observed_state ≠ CoreState.stopping → o.poll_outcome = Except.error e →
        sinkF e = Except.error se →
        worker_run_single_go (some sinkF) p q (o :: rest) wr =
          ((if p.delay_rounds ≤ wr then [WorkerEvent.delay] else [])
             ++ [WorkerEvent.run_queue q], some se))
    ∧ ((∀ e2, sinkF e2 = Except.ok ()) →
        ((worker_run_single_go (some sinkF) p q obs wr).1.filter is_run_event).length =
          (obs.takeWhile (fun o2 => o2.observed_state != CoreState.stopping)).length
        ∧ (worker_run_single_go (some sinkF) p q obs wr).2 = none) := by
  refine ⟨rfl, ?_, ?_, ?_, ?_⟩
  · intro h
    simp [worker_poll_context, h]
  · intro h
    simp [worker_poll_context, h]
  · intro h1 h2 h3
    by_cases hd : p.delay_rounds ≤ wr <;>
      simp [worker_run_single_go, h1, h2, h3, worker_poll_context, hd]
  · intro hall
    refine run_single_events (some sinkF) p q (fun oc => ?_) obs wr
    cases oc with
    | ok k => exact ⟨k, rfl⟩
    | error e2 => exact ⟨0, by simp [worker_poll_context, hall e2]⟩

/-- C7 witness: with the fixture sink, task error 3 is forwarded and
swallowed (poll returns 0) while task error 9 makes the sink throw 7,
which is not caught. -/
theorem C7_witness :
    (ex_sink 3 = Except.ok () ∧ worker_poll_context (some ex_sink) (Except.error 3) = Except.ok 0)
    ∧ (ex_sink 9 = Except.error 7
        ∧ worker_poll_context (some ex_sink) (Except.error 9) = Except.error 7) :=
  ⟨⟨rfl, (C7_task_exception_sink_policy ex_sink 3 7 0 default_parameters 0
      { observed_state := .running, poll_outcome := .ok 0, stopped_after := false }
      [] [] 0).2.1 rfl⟩,
   ⟨rfl, (C7_task_exception_sink_policy ex_sink 9 7 0 default_parameters 0
      { observed_state := .running, poll_outcome := .ok 0, stopped_after := false }
      [] [] 0).2.2.1 rfl⟩⟩


theorem mem_tree_children (parent : Nat → Nat) (N p c : Nat) :
    c ∈ tree_children parent N p ↔ c < N ∧ c ≠ 0 ∧ parent c = p := by
  simp [tree_children, List.mem_filter, and_assoc]

theorem tree_children_nodup (parent : Nat → Nat) (N p : Nat) :
    (tree_children parent N p).Nodup :=
  (List.nodup_range N).filter _

theorem push_children_spec :
    ∀ (cs ordered : List Nat) (visited : List Bool), cs.Nodup →
      (∀ c ∈ cs, visited.getD c false = false) →
      (∀ c ∈ cs, c < visited.length) →
      (push_children cs ordered visited).1 = ordered ++ cs ∧
      (push_children cs ordered visited).2.length = visited.length ∧
      (∀ i, (push_children cs ordered visited).2.getD i false = true ↔
            (visited.getD i false = true ∨ i ∈ cs)) := by
  intro cs
  induction cs with
  | nil => intro ordered visited _ _ _; simp [push_children]
  | cons c rest ih =>
    intro ordered visited hnodup hnv hlen
    have hc : visited.getD c false = false := hnv c (by simp)
    have hcl : c < visited.length := hlen c (by simp)
    have hcr : c ∉ rest := (List.nodup_cons.mp hnodup).1
    have hnv2 : ∀ d ∈ rest, (visited.set c true).getD d false = false := by
      intro d hd
      have hne : c ≠ d := fun h => hcr (h ▸ hd)
      rw [List.getD_eq_getElem?_getD, List.getElem?_set_ne hne,
        ← List.getD_eq_getElem?_getD]
      exact hnv d (by simp [hd])
    have hlen2 : ∀ d ∈ rest, d < (visited.set c true).length := by
      intro d hd
      simpa using hlen d (by simp [hd])
    have hrec := ih (ordered ++ [c]) (visited.set c true)
      (List.nodup_cons.mp hnodup).2 hnv2 hlen2
    refine ⟨?_, ?_, ?_⟩
    · rw [push_children, if_neg (by rw [hc]; simp), hrec.1, List.append_assoc]
      rfl
    · rw [push_children, if_neg (by rw [hc]; simp)]
      simpa using hrec.2.1
    · intro i
      rw [push_children, if_neg (by rw [hc]; simp)]
      rw [hrec.2.2 i]
      by_cases hic : i = c
      · subst hic
        simp [List.getD_eq_getElem?_getD, List.getElem?_set_self hcl, hc]
      · rw [List.getD_eq_getElem?_getD, List.getElem?_set_ne (fun h => hic h.symm),
          ← List.getD_eq_getElem?_getD]
        simp [hic]


theorem bfs_inv_init (parent : Nat → Nat) (N : Nat) (hN : 0 < N) :
    BfsInv parent N [0] ((List.replicate N false).set 0 true) 0 := by
  refine ⟨List.nodup_singleton 0, by simp, ?_, by simpa using hN, rfl, by simp, ?_, ?_⟩
  · intro i
    constructor
    · intro hi
      have : i = 0 := by simpa using hi
      subst this
      have h0 : (0 : Nat) < (List.replicate N false).length := by simpa using hN
      simp [List.getD_eq_getElem?_getD, List.getElem?_set_self h0]
    · intro hi
      by_cases h : i = 0
      · simp [h]
      · exfalso
        rw [List.getD_eq_getElem?_getD, List.getElem?_set_ne (fun he => h he.symm)] at hi
        rcases Nat.lt_or_ge i N with hlt | hge
        · simp [List.getElem?_replicate, hlt] at hi
        · rw [List.getElem?_eq_none (by simpa using hge)] at hi
          simp at hi
  · intro a ha hne
    have ha0 : a = 0 := by simpa using ha
    subst ha0
    simp at hne
  · intro k hk
    omega

theorem bfs_inv_length_le (parent : Nat → Nat) (N : Nat)
    {ordered : List Nat} {visited : List Bool} {ptr : Nat}
    (inv : BfsInv parent N ordered visited ptr) : ordered.length ≤ N := by
  have h := List.subperm_of_subset inv.nodup
    (fun x hx => List.mem_range.mpr (inv.bounded x hx))
  simpa using h.length_le

theorem bfs_inv_complete_of_processed (parent : Nat → Nat) (N : Nat)
    (hv : valid_tree parent N)
    {ordered : List Nat} {visited : List Bool} {ptr : Nat}
    (inv : BfsInv parent N ordered visited ptr)
    (hall : ordered.length ≤ ptr) : ∀ i, i < N → i ∈ ordered := by
  intro i
  induction i using Nat.strong_induction_on with
  | _ i ih =>
    intro hiN
    by_cases h0 : i = 0
    · subst h0; exact inv.root_mem
    · have hpar : parent i < i := hv.2 i hiN (Nat.pos_of_ne_zero h0)
      have hmem : parent i ∈ ordered := ih (parent i) hpar (lt_trans hpar hiN)
      obtain ⟨k, hk, hkv⟩ := List.mem_iff_getElem.mp hmem
      have hinf := inv.children_infix k (lt_of_lt_of_le hk hall) hk
      have hic : i ∈ tree_children parent N (ordered.getD k 0) := by
        rw [List.getD_eq_getElem?_getD, List.getElem?_eq_getElem hk]
        simp only [Option.getD_some, hkv]
        exact (mem_tree_children parent N (parent i) i).mpr ⟨hiN, h0, rfl⟩
      exact hinf.subset hic

theorem bfs_inv_length_eq (parent : Nat → Nat) (N : Nat)
    (hv : valid_tree parent N)
    {ordered : List Nat} {visited : List Bool} {ptr : Nat}
    (inv : BfsInv parent N ordered visited ptr)
    (hall : ordered.length ≤ ptr) : ordered.length = N := by
  refine le_antisymm (bfs_inv_length_le parent N inv) ?_
  have hsub : List.range N ⊆ ordered := by
    intro i hi
    exact bfs_inv_complete_of_processed parent N hv inv hall i (List.mem_range.mp hi)
  have h := List.subperm_of_subset (List.nodup_range N) hsub
  simpa using h.length_le


theorem getD_append_left_nat {l1 l2 : List Nat} {a : Nat} (h : a < l1.length) :
    (l1 ++ l2).getD a 0 = l1.getD a 0 := by
  rw [List.getD_eq_getElem?_getD, List.getD_eq_getElem?_getD, List.getElem?_append_left h]

theorem getD_append_right_nat {l1 l2 : List Nat} {a : Nat} (h : l1.length ≤ a) :
    (l1 ++ l2).getD a 0 = l2.getD (a - l1.length) 0 := by
  rw [List.getD_eq_getElem?_getD, List.getD_eq_getElem?_getD, List.getElem?_append_right h]

theorem bfs_getD_eq_of_lt {l : List Nat} {a : Nat} (h : a < l.length) :
    l.getD a 0 = l.get ⟨a, h⟩ := by
  rw [List.getD_eq_getElem?_getD, List.getElem?_eq_getElem h]
  simp

theorem bfs_nodup_getD_inj {l : List Nat} (hn : l.Nodup) {a b : Nat}
    (ha : a < l.length) (hb : b < l.length) (h : l.getD a 0 = l.getD b 0) : a = b := by
  rw [bfs_getD_eq_of_lt ha, bfs_getD_eq_of_lt hb] at h
  exact (hn.getElem_inj_iff).mp h

theorem order_go_inv (parent : Nat → Nat) (N : Nat) (hv : valid_tree parent N) :
    ∀ (fuel : Nat) (ordered : List Nat) (visited : List Bool) (ptr : Nat),
      BfsInv parent N ordered visited ptr → N ≤ ptr + fuel →
      ∃ visited2 ptr2,
        BfsInv parent N (order_nodes_go (tree_children parent N) N fuel ordered visited ptr)
          visited2 ptr2
        ∧ (order_nodes_go (tree_children parent N) N fuel ordered visited ptr).length = N := by
  intro fuel
  induction fuel with
  | zero =>
    intro ordered visited ptr inv hfuel
    have hall : ordered.length ≤ ptr :=
      le_trans (bfs_inv_length_le parent N inv) (by omega)
    exact ⟨visited, ptr, by simpa [order_nodes_go] using inv,
      by simpa [order_nodes_go] using bfs_inv_length_eq parent N hv inv hall⟩
  | succ fuel ih =>
    intro ordered visited ptr inv hfuel
    by_cases hlt : ordered.length < N
    · have hptr : ptr < ordered.length := by
        by_contra hge
        have := bfs_inv_length_eq parent N hv inv (by omega)
        omega
      have hfresh : ∀ c ∈ tree_children parent N (ordered.getD ptr 0), c ∉ ordered := by
        intro c hcmem hcord
        obtain ⟨hcN, hc0, hcp⟩ := (mem_tree_children parent N _ c).mp hcmem
        obtain ⟨b, hb, hbv⟩ := List.mem_iff_getElem.mp hcord
        have hbD : ordered.getD b 0 = c := by
          rw [bfs_getD_eq_of_lt hb]
          simpa using hbv
        obtain ⟨k, hka, hkp, hkD⟩ := inv.parent_pos b hb (by rw [hbD]; exact hc0)
        have hgetk : ordered.getD k 0 = ordered.getD ptr 0 := by
          rw [hkD, hbD, hcp]
        have : k = ptr := bfs_nodup_getD_inj inv.nodup (by omega) hptr hgetk
        omega
      have hnv : ∀ c ∈ tree_children parent N (ordered.getD ptr 0),
          visited.getD c false = false := by
        intro c hc
        cases h : visited.getD c false
        · rfl
        · exact absurd ((inv.mem_iff c).mpr h) (hfresh c hc)
      have hclen : ∀ c ∈ tree_children parent N (ordered.getD ptr 0),
          c < visited.length := by
        intro c hc
        rw [inv.vlen]
        exact ((mem_tree_children parent N _ c).mp hc).1
      have hspec := push_children_spec (tree_children parent N (ordered.getD ptr 0))
        ordered visited (tree_children_nodup parent N _) hnv hclen
      have hstep : order_nodes_go (tree_children parent N) N (fuel + 1) ordered visited ptr
          = order_nodes_go (tree_children parent N) N fuel
              (ordered ++ tree_children parent N (ordered.getD ptr 0))
              (push_children (tree_children parent N (ordered.getD ptr 0)) ordered visited).2
              (ptr + 1) := by
        conv_lhs => rw [order_nodes_go]
        rw [if_pos hlt]
        simp only [hspec.1]
      have hlenpos : 0 < ordered.length := List.length_pos.mpr (by
        intro h
        exact absurd (h ▸ inv.root_mem) (List.not_mem_nil 0))
      have inv2 : BfsInv parent N
          (ordered ++ tree_children parent N (ordered.getD ptr 0))
          (push_children (tree_children parent N (ordered.getD ptr 0)) ordered visited).2
          (ptr + 1) := by
        refine ⟨?_, ?_, ?_, ?_, ?_, ?_, ?_, ?_⟩
        · exact List.nodup_append.mpr ⟨inv.nodup, tree_children_nodup parent N _,
            fun a hao hacs => hfresh a hacs hao⟩
        · rw [hspec.2.1, inv.vlen]
        · intro i
          rw [List.mem_append, hspec.2.2 i, inv.mem_iff i]
        · intro i hi
          rcases List.mem_append.mp hi with h | h
          · exact inv.bounded i h
          · exact ((mem_tree_children parent N _ i).mp h).1
        · rw [getD_append_left_nat hlenpos]
          exact inv.root_first
        · exact List.mem_append.mpr (Or.inl inv.root_mem)
        · intro a ha hne
          by_cases hal : a < ordered.length
          · rw [getD_append_left_nat hal] at hne ⊢
            obtain ⟨k, hka, hkp, hkD⟩ := inv.parent_pos a hal hne
            exact ⟨k, hka, by omega, by rw [getD_append_left_nat (by omega), hkD]⟩
          · push_neg at hal
            have hsub : a - ordered.length <
                (tree_children parent N (ordered.getD ptr 0)).length := by
              rw [List.length_append] at ha
              omega
            have haD : (ordered ++ tree_children parent N (ordered.getD ptr 0)).getD a 0
                = (tree_children parent N (ordered.getD ptr 0)).getD (a - ordered.length) 0 :=
              getD_append_right_nat hal
            have hmemc : (tree_children parent N (ordered.getD ptr 0)).getD
                (a - ordered.length) 0 ∈ tree_children parent N (ordered.getD ptr 0) := by
              rw [bfs_getD_eq_of_lt hsub]
              exact List.get_mem _ _ _
            obtain ⟨hcN, hc0, hcp⟩ := (mem_tree_children parent N _ _).mp hmemc
            refine ⟨ptr, by omega, by omega, ?_⟩
            rw [getD_append_left_nat hptr, haD, hcp]
        · intro k hk hkl
          by_cases hkp : k < ptr
          · have hkl2 : k < ordered.length := by omega
            rw [getD_append_left_nat hkl2]
            exact (inv.children_infix k hkp hkl2).trans ⟨[], tree_children parent N (ordered.getD ptr 0), by simp⟩
          · have hkeq : k = ptr := by omega
            subst hkeq
            rw [getD_append_left_nat hptr]
            exact ⟨ordered, [], by simp⟩
      obtain ⟨v2, p2, hi2, hl2⟩ := ih _ _ (ptr + 1) inv2 (by omega)
      exact ⟨v2, p2, by rwa [hstep], by rwa [hstep]⟩
    · have hlen : ordered.length = N := by
        have := bfs_inv_length_le parent N inv
        omega
      refine ⟨visited, ptr, ?_, ?_⟩
      · rw [order_nodes_go, if_neg hlt]
        exact inv
      · rw [order_nodes_go, if_neg hlt]
        exact hlen


theorem getD_eq_getElem_of_lt {α : Type} {l : List α} {a : Nat} (d0 : α)
    (h : a < l.length) : l.getD a d0 = l[a] := by
  rw [List.getD_eq_getElem?_getD, List.getElem?_eq_getElem h]
  rfl

theorem list_split_two {α : Type} (M : List α) (d0 : α) (i j : Nat)
    (hij : i < j) (hj : j < M.length) :
    ∃ A B C2, M = A ++ M.getD i d0 :: (B ++ M.getD j d0 :: C2) := by
  have hi : i < M.length := by omega
  have h1 : M.drop j = M.getD j d0 :: M.drop (j + 1) := by
    rw [List.drop_eq_getElem_cons hj, getD_eq_getElem_of_lt d0 hj]
  have h2 : M.drop (i + 1) = (M.drop (i + 1)).take (j - i - 1) ++ M.drop j := by
    conv_lhs => rw [← List.take_append_drop (j - i - 1) (M.drop (i + 1))]
    congr 1
    rw [List.drop_drop]
    congr 1
    omega
  have h3 : M.drop i = M.getD i d0 :: M.drop (i + 1) := by
    rw [List.drop_eq_getElem_cons hi, getD_eq_getElem_of_lt d0 hi]
  refine ⟨M.take i, (M.drop (i + 1)).take (j - i - 1), M.drop (j + 1), ?_⟩
  conv_lhs => rw [← List.take_append_drop i M, h3, h2, h1]

/-- The breadth-first ordering of a valid tree: every node appears exactly
once, the root is first, every non-root appears after its parent, and the
children of every listed node form a contiguous block (so children appear
in insertion order). -/
theorem order_nodes_props (parent : Nat → Nat) (N : Nat)
    (hv : valid_tree parent N) (hN : 0 < N) :
    (order_nodes parent N).Nodup
    ∧ (∀ i, i ∈ order_nodes parent N ↔ i < N)
    ∧ (order_nodes parent N).getD 0 0 = 0
    ∧ (∀ i ∈ order_nodes parent N, i ≠ 0 →
        (order_nodes parent N).indexOf (parent i) < (order_nodes parent N).indexOf i)
    ∧ (∀ p2 ∈ order_nodes parent N, tree_children parent N p2 <:+: order_nodes parent N) := by
  obtain ⟨v2, ptrF, inv, hlen⟩ := order_go_inv parent N hv N [0]
    ((List.replicate N false).set 0 true) 0 (bfs_inv_init parent N hN) (by omega)
  have hON : order_nodes parent N = order_nodes_go (tree_children parent N) N N [0]
      ((List.replicate N false).set 0 true) 0 := rfl
  rw [← hON] at inv hlen
  have hperm : List.Perm (order_nodes parent N) (List.range N) := by
    refine (List.subperm_of_subset inv.nodup
      (fun x hx => List.mem_range.mpr (inv.bounded x hx))).perm_of_length_le ?_
    simp [hlen]
  have hmem : ∀ i, i ∈ order_nodes parent N ↔ i < N := by
    intro i
    rw [hperm.mem_iff, List.mem_range]
  have hidx : ∀ i ∈ order_nodes parent N, i ≠ 0 →
      (order_nodes parent N).indexOf (parent i) < (order_nodes parent N).indexOf i := by
    intro i hi h0
    have hil : (order_nodes parent N).indexOf i < (order_nodes parent N).length :=
      List.indexOf_lt_length.mpr hi
    have hgetD : (order_nodes parent N).getD ((order_nodes parent N).indexOf i) 0 = i := by
      rw [getD_eq_getElem_of_lt 0 hil]
      exact List.getElem_indexOf hil
    obtain ⟨k, hka, hkp, hkD⟩ := inv.parent_pos _ hil (by rw [hgetD]; exact h0)
    have hkl : k < (order_nodes parent N).length := by omega
    have hkD2 : (order_nodes parent N).getD k 0 = parent i := by rw [hkD, hgetD]
    have hidxk : (order_nodes parent N).indexOf (parent i) = k := by
      rw [getD_eq_getElem_of_lt 0 hkl] at hkD2
      rw [← hkD2]
      exact List.indexOf_getElem inv.nodup k hkl
    omega
  refine ⟨inv.nodup, hmem, inv.root_first, hidx, ?_⟩
  intro p2 hp2
  obtain ⟨a, ha, hav⟩ := List.mem_iff_getElem.mp hp2
  have haD : (order_nodes parent N).getD a 0 = p2 := by
    rw [getD_eq_getElem_of_lt 0 ha, hav]
  by_cases hap : a < ptrF
  · have := inv.children_infix a hap ha
    rwa [haD] at this
  · rcases hcs : tree_children parent N p2 with _ | ⟨c, csrest⟩
    · exact ⟨[], order_nodes parent N, by simp⟩
    · exfalso
      have hcmem : c ∈ tree_children parent N p2 := by rw [hcs]; simp
      obtain ⟨hcN, hc0, hcp⟩ := (mem_tree_children parent N p2 c).mp hcmem
      have hcord : c ∈ order_nodes parent N := (hmem c).mpr hcN
      obtain ⟨b, hb, hbv⟩ := List.mem_iff_getElem.mp hcord
      have hbD : (order_nodes parent N).getD b 0 = c := by
        rw [getD_eq_getElem_of_lt 0 hb, hbv]
      obtain ⟨k, hkb, hkp, hkD⟩ := inv.parent_pos b hb (by rw [hbD]; exact hc0)
      have hkD2 : (order_nodes parent N).getD k 0 = p2 := by
        rw [hkD, hbD, hcp]
      have : k = a := bfs_nodup_getD_inj inv.nodup (by omega) ha (by rw [hkD2, haD])
      omega


theorem getD_reverse_nat {l : List Nat} {i : Nat} (h : i < l.length) :
    l.reverse.getD i 0 = l.getD (l.length - 1 - i) 0 := by
  have h2 : i < l.reverse.length := by simpa using h
  have h3 : l.length - 1 - i < l.length := by omega
  rw [getD_eq_getElem_of_lt 0 h2, getD_eq_getElem_of_lt 0 h3, List.getElem_reverse]

/-- C4: order_nodes_ is a breadth-first ordering of the tree from the root
(each node exactly once, root first, every node after its parent, children
of each node contiguous and hence in insertion order), and start_workers_
iterates it in reverse, so for every proper descendant d of a node n the
pin and worker launches of d all occur before the pin and launches of n. -/
theorem C4_bfs_order_reverse_launch (parent workers : Nat → Nat) (N : Nat)
    (hv : valid_tree parent N) (hN : 0 < N) :
    ((order_nodes parent N).Nodup ∧ (∀ i, i ∈ order_nodes parent N ↔ i < N)
      ∧ (order_nodes parent N).getD 0 0 = 0)
    ∧ (∀ i ∈ order_nodes parent N, i ≠ 0 →
        (order_nodes parent N).indexOf (parent i) < (order_nodes parent N).indexOf i)
    ∧ (∀ p2 ∈ order_nodes parent N, tree_children parent N p2 <:+: order_nodes parent N)
    ∧ (∀ d n2, IsDesc parent d n2 → d < N →
        ∃ l1 l2 l3, start_workers parent workers N =
          l1 ++ node_start_events workers d ++ l2 ++ node_start_events workers n2 ++ l3) := by
  obtain ⟨hnd, hmem, hroot, hidx, hinf⟩ := order_nodes_props parent N hv hN
  refine ⟨⟨hnd, hmem, hroot⟩, hidx, hinf, ?_⟩
  have hdesc : ∀ d n2, IsDesc parent d n2 → d < N →
      n2 < N ∧ (order_nodes parent N).indexOf n2 < (order_nodes parent N).indexOf d := by
    intro d n2 hd
    induction hd with
    | base d n2 h0 hpar =>
      intro hdN
      have h2 := hidx d ((hmem d).mpr hdN) h0
      have h3 : parent d < d := hv.2 d hdN (Nat.pos_of_ne_zero h0)
      rw [hpar] at h2
      refine ⟨by omega, h2⟩
    | step d m n2 h0 hpar hrest ih =>
      intro hdN
      have h3 : parent d < d := hv.2 d hdN (Nat.pos_of_ne_zero h0)
      have hmN : m < N := by rw [hpar] at h3; omega
      obtain ⟨hn2, hi1⟩ := ih hmN
      have h2 := hidx d ((hmem d).mpr hdN) h0
      rw [hpar] at h2
      exact ⟨hn2, lt_trans hi1 h2⟩
  intro d n2 hd hdN
  obtain ⟨hn2N, hlt⟩ := hdesc d n2 hd hdN
  have hdmem : d ∈ order_nodes parent N := (hmem d).mpr hdN
  have hnmem : n2 ∈ order_nodes parent N := (hmem n2).mpr hn2N
  have hdl : (order_nodes parent N).indexOf d < (order_nodes parent N).length :=
    List.indexOf_lt_length.mpr hdmem
  have hnl : (order_nodes parent N).indexOf n2 < (order_nodes parent N).length :=
    List.indexOf_lt_length.mpr hnmem
  have hrevlen : (order_nodes parent N).reverse.length = (order_nodes parent N).length :=
    List.length_reverse _
  have hpdpn : (order_nodes parent N).length - 1 - (order_nodes parent N).indexOf d <
      (order_nodes parent N).length - 1 - (order_nodes parent N).indexOf n2 := by
    omega
  have hpnlen : (order_nodes parent N).length - 1 - (order_nodes parent N).indexOf n2 <
      (order_nodes parent N).reverse.length := by
    omega
  have hpdlen2 : (order_nodes parent N).length - 1 - (order_nodes parent N).indexOf d <
      (order_nodes parent N).length := by
    omega
  have hpnlen2 : (order_nodes parent N).length - 1 - (order_nodes parent N).indexOf n2 <
      (order_nodes parent N).length := by
    omega
  have hrevd : (order_nodes parent N).reverse.getD
      ((order_nodes parent N).length - 1 - (order_nodes parent N).indexOf d) 0 = d := by
    rw [getD_reverse_nat hpdlen2]
    have he : (order_nodes parent N).length - 1 -
        ((order_nodes parent N).length - 1 - (order_nodes parent N).indexOf d) =
        (order_nodes parent N).indexOf d := by omega
    rw [he, getD_eq_getElem_of_lt 0 hdl]
    exact List.getElem_indexOf hdl
  have hrevn : (order_nodes parent N).reverse.getD
      ((order_nodes parent N).length - 1 - (order_nodes parent N).indexOf n2) 0 = n2 := by
    rw [getD_reverse_nat hpnlen2]
    have he : (order_nodes parent N).length - 1 -
        ((order_nodes parent N).length - 1 - (order_nodes parent N).indexOf n2) =
        (order_nodes parent N).indexOf n2 := by omega
    rw [he, getD_eq_getElem_of_lt 0 hnl]
    exact List.getElem_indexOf hnl
  obtain ⟨A, B, C2, hsplit⟩ := list_split_two (order_nodes parent N).reverse 0 _ _ hpdpn hpnlen
  rw [hrevd, hrevn] at hsplit
  refine ⟨A.flatMap (node_start_events workers), B.flatMap (node_start_events workers),
    C2.flatMap (node_start_events workers), ?_⟩
  rw [start_workers, if_neg (by omega), hsplit]
  simp [List.flatMap_append, List.flatMap_cons, List.append_assoc]

/-- C4 witness: the three-node chain, where node 2 is a proper descendant of
the root 0, so the pin and launch of node 2 precede those of node 0. -/
theorem C4_witness :
    valid_tree ex_parent 3 ∧ 0 < 3 ∧
    (∃ l1 l2 l3, start_workers ex_parent ex_workers 3 =
      l1 ++ node_start_events ex_workers 2 ++ l2 ++ node_start_events ex_workers 0 ++ l3) := by
  have hv : valid_tree ex_parent 3 := ⟨rfl, by decide⟩
  refine ⟨hv, by decide, ?_⟩
  refine (C4_bfs_order_reverse_launch ex_parent ex_workers 3 hv (by decide)).2.2.2 2 0 ?_
    (by decide)
  exact IsDesc.step 2 1 0 (by decide) rfl (IsDesc.base 1 0 (by decide) rfl)

end AsyncCore
